import Mathlib

/-!
Verification development for the term-parser repository.

The Python sources `term_extractor/core/pdf_extractor.py` and
`term_extractor/core/term_database.py` are shallowly embedded below.
Python floats are modelled as exact rationals (`Rat`); Python lists as
`List`; Python dicts and sets as insertion-ordered association lists
(CPython dicts preserve insertion order; set iteration order is
implementation-defined and is modelled here as insertion order — no
theorem below depends on the order of tied elements except where a
distinct-scores hypothesis makes the order unique).  Fallible Python
code (statements that can raise) is modelled with `Option`, `none`
standing for a raised exception.  External capabilities (the sentence
encoder, the regex engine, the morphological segmenter, whoosh's
relevance scorer) are passed in as function parameters ("oracles"),
since only their call contracts are visible in the source.
-/

/-! ## String helpers (Python `in` on strings is substring containment) -/

/-- `leadEq pat l` holds when `pat` is an initial segment of `l`. -/
def leadEq : List Char → List Char → Bool
  | [], _ => true
  | _ :: _, [] => false
  | a :: as, b :: bs => a == b && leadEq as bs

/-- `charsSub pat l` holds when `pat` occurs contiguously inside `l`. -/
def charsSub (pat : List Char) : List Char → Bool
  | [] => leadEq pat []
  | c :: cs => leadEq pat (c :: cs) || charsSub pat cs

/-- Python `pat in s` for strings: substring containment. -/
def strContainsSub (s pat : String) : Bool :=
  charsSub pat.toList s.toList

/-! ## pdf_extractor.py — data and the construction-term heuristic -/

/-- A token from the external morphological segmenter (sudachipy):
surface form plus the first part-of-speech tag. -/
structure Token where
  surface : String
  pos : String
  deriving Repr, DecidableEq

/-- A term candidate as built by `extract_terms_from_text`
(the Python dict with keys `term`, `type`, `confidence`). -/
structure Candidate where
  term : String
  ckind : String
  confidence : Rat
  deriving Repr, DecidableEq

/-- `self.construction_keywords` (pdf_extractor.py lines 25-30). -/
def constructionKeywords : List String :=
  ["工事", "施工", "構造", "材料", "設備", "管理", "基礎", "躯体",
   "仕上げ", "配管", "配線", "防水", "断熱", "耐震", "免震", "制震",
   "鉄筋", "コンクリート", "鋼材", "木材", "石材", "タイル", "ガラス",
   "建築", "土木", "設計", "監理", "検査", "試験", "品質", "安全"]

/-- `self.term_patterns` (pdf_extractor.py lines 17-22); the regex
strings themselves, matched by the external `re` engine (an oracle). -/
def termPatterns : List String :=
  ["[ァ-ヴ]{3,}",
   "[一-龯]{2,}[工事|施工|構造|材料|設備|管理]",
   "[A-Z]{2,}",
   "\\d+[級|種|号|型]"]

/-- Number of katakana characters, per the `'ァ' <= c <= 'ヴ'` test. -/
def katakanaCount (s : String) : Nat :=
  (s.toList.filter (fun c => decide ('ァ' ≤ c) && decide (c ≤ 'ヴ'))).length

/-- Character class of the `\d+[mm|cm|m|kg|t|N|Pa|MPa|級|種|号]` pattern:
a regex character class matches single characters, `|` included literally. -/
def unitChars : List Char :=
  ['m', 'c', 'k', 'g', 't', 'N', 'P', 'a', 'M', '|', '級', '種', '号']

def isAsciiDigitChar (c : Char) : Bool :=
  decide ('0' ≤ c) && decide (c ≤ '9')

/-- Adjacent character pairs of a list. -/
def adjPairs : List Char → List (Char × Char)
  | a :: b :: rest => (a, b) :: adjPairs (b :: rest)
  | _ => []

/-- `re.search(r'\d+[...]', term)` succeeds iff some digit is directly
followed by a class character (the class holds no digits). -/
def hasNumberUnit (s : String) : Bool :=
  (adjPairs s.toList).any (fun p => isAsciiDigitChar p.1 && unitChars.contains p.2)

/-- `_is_construction_term` (pdf_extractor.py lines 96-112).
`none` models the `ZeroDivisionError` raised by
`katakana_ratio = .../ len(term)` when `term` is empty; the keyword
loop returns before the division, so a keyword hit can never raise. -/
def isConstructionTerm (term : String) : Option Bool :=
  if constructionKeywords.any (fun kw => strContainsSub term kw) then some true
  else if term.length = 0 then none
  else if ((katakanaCount term : Rat) / (term.length : Rat)) > 7 / 10 then some true
  else if hasNumberUnit term then some true
  else some false

/-! ## pdf_extractor.py — extract_terms_from_text (lines 45-94) -/

/-- The running state: `seen_terms` (a Python set, modelled as an
insertion-ordered list used only for membership) and `terms`. -/
structure ExtractState where
  seen : List String
  terms : List Candidate
  deriving Repr, DecidableEq

def nounPos : String := "名詞"

/-- One regex match in the pattern loop (lines 53-60). -/
def patternStep (st : ExtractState) (m : String) : ExtractState :=
  if m ∉ st.seen ∧ 2 ≤ m.length then
    { seen := st.seen ++ [m], terms := st.terms ++ [⟨m, "pattern", 7 / 10⟩] }
  else st

/-- Pattern-based extraction (lines 50-60); `findall pat text` is the
external `re.findall` call. -/
def patternPhase (findall : String → String → List String) (text : String) : ExtractState :=
  termPatterns.foldl (fun st p => (findall p text).foldl patternStep st) ⟨[], []⟩

/-- The mid-stream buffer flush on a non-noun token (lines 73-81).
Python evaluates `phrase not in seen_terms` before calling the
heuristic (short-circuit `and`), so a seen phrase never raises. -/
def flushMid (st : ExtractState) (buf : List String) : Option ExtractState :=
  if 2 ≤ buf.length then
    if String.join buf ∈ st.seen then some st
    else
      match isConstructionTerm (String.join buf) with
      | none => none
      | some true => some { seen := st.seen ++ [String.join buf],
                            terms := st.terms ++ [⟨String.join buf, "morphological", 8 / 10⟩] }
      | some false => some st
  else some st

/-- One token of the morphological loop (lines 67-82): nouns extend the
buffer; any other token flushes and resets it. -/
def morphStep (acc : ExtractState × List String) (tk : Token) :
    Option (ExtractState × List String) :=
  if tk.pos = nounPos then some (acc.1, acc.2 ++ [tk.surface])
  else
    match flushMid acc.1 acc.2 with
    | none => none
    | some st => some (st, [])

/-- The morphological loop over the token stream. -/
def morphRun (acc : ExtractState × List String) : List Token → Option (ExtractState × List String)
  | [] => some acc
  | tk :: rest =>
    match morphStep acc tk with
    | none => none
    | some acc2 => morphRun acc2 rest

/-- The terminal flush (lines 84-92).  It checks the buffer exactly as
the mid-stream flush does but appends only to `terms`, not to
`seen_terms`. -/
def finalFlush (st : ExtractState) (buf : List String) : Option (List Candidate) :=
  if 2 ≤ buf.length then
    if String.join buf ∈ st.seen then some st.terms
    else
      match isConstructionTerm (String.join buf) with
      | none => none
      | some true => some (st.terms ++ [⟨String.join buf, "morphological", 8 / 10⟩])
      | some false => some st.terms
  else some st.terms

/-- `extract_terms_from_text` (lines 45-94).  `findall` is the external
regex engine; `tokens` is the external segmenter's output for `text`. -/
def extractTermsFromText (findall : String → String → List String) (text : String)
    (tokens : List Token) : Option (List Candidate) :=
  match morphRun (patternPhase findall text, []) tokens with
  | none => none
  | some (st, buf) => finalFlush st buf

/-- The seen-set invariant: `seen_terms` lists exactly the surface
forms of the emitted candidates, without duplicates. -/
def seenInv (st : ExtractState) : Prop :=
  st.seen = st.terms.map (fun c => c.term) ∧ st.seen.Nodup

/-! ## pdf_extractor.py — extract_terms_from_pdfs (lines 114-146) -/

/-- A batch result row: the candidate dict after the in-place addition
of the `frequency` key and the confidence boost. -/
structure BatchEntry where
  term : String
  ckind : String
  confidence : Rat
  frequency : Nat
  deriving Repr, DecidableEq

/-- Lookup in the `term_frequency` dict (association list). -/
def nlookup : List (String × Nat) → String → Option Nat
  | [], _ => none
  | (k, n) :: m, t => if k = t then some n else nlookup m t

/-- `term_frequency[term] += 1` (the key is known to be present). -/
def nbump : List (String × Nat) → String → List (String × Nat)
  | [], _ => []
  | (k, n) :: m, t => if k = t then (k, n + 1) :: m else (k, n) :: nbump m t

/-- The per-candidate body of the frequency-counting loop
(lines 128-134): bump the counter or register a first occurrence. -/
def batchFold (acc : List (String × Nat) × List Candidate) (c : Candidate) :
    List (String × Nat) × List Candidate :=
  match nlookup acc.1 c.term with
  | some _ => (nbump acc.1 c.term, acc.2)
  | none => (acc.1 ++ [(c.term, 1)], acc.2 ++ [c])

/-- Descending Python sort key `(frequency, confidence)` (line 144):
lexicographic.  Python's `list.sort` is stable; it is modelled by
`List.insertionSort`, which is stable for this kind of relation, so the
two agree row for row. -/
def batchLe (a b : BatchEntry) : Prop :=
  b.frequency < a.frequency ∨
    (b.frequency = a.frequency ∧ b.confidence ≤ a.confidence)

instance : DecidableRel batchLe := fun a b => by
  unfold batchLe
  infer_instance

/-- `extract_terms_from_pdfs` (lines 114-146), taking the already
extracted per-document candidate lists (PDF reading and
`extract_terms_from_text` happen upstream of the aggregation the claim
is about). -/
def extractTermsFromPdfs (docsTerms : List (List Candidate)) : List BatchEntry :=
  let acc := docsTerms.foldl (fun a doc => doc.foldl batchFold a) ([], [])
  let boosted := acc.2.map (fun c =>
    let f := (nlookup acc.1 c.term).getD 0
    { term := c.term, ckind := c.ckind, frequency := f,
      confidence := if 3 < f then min 1 (c.confidence + 1 / 10) else c.confidence : BatchEntry })
  List.insertionSort batchLe boosted

/-- The raw confidence of a term in a batch: the confidence carried by
its first occurrence across the concatenated per-document lists. -/
def rawConfOf (docsTerms : List (List Candidate)) (t : String) : Rat :=
  (((docsTerms.flatten).find? (fun c => c.term == t)).map (fun c => c.confidence)).getD 0

/-! ## term_database.py — data model -/

/-- One entry of `self.terms_data` (term_database.py lines 62-70). -/
structure TermEntry where
  id : Nat
  term : String
  aliases : List String
  category : String
  confidence : Rat
  frequency : Nat
  context : String
  deriving Repr, DecidableEq

/-- One input dict passed to `build_from_terms`: `term` is required,
`confidence` and `frequency` are read with `.get(..., default)`. -/
structure TermInput where
  term : String
  confidence : Option Rat
  frequency : Option Nat
  deriving Repr, DecidableEq

/-- One document of the whoosh index (schema of `_setup_whoosh_index`,
lines 34-40; the `id` field stores `str(idx)` and is parsed back with
`int`, so it is kept as a `Nat`). -/
structure WhooshDoc where
  docId : Nat
  term : String
  aliases : String
  category : String
  context : String
  deriving Repr, DecidableEq

/-- The in-memory state of a `TermDatabase`.  The faiss `IndexFlatL2`
stores one embedding per added term; the encoder is deterministic per
string, so a stored vector is represented by the string it encodes
(`none` = `self.faiss_index is None`). -/
structure TermDatabase where
  termsData : List TermEntry
  faissVectors : Option (List String)
  whooshDocs : List WhooshDoc
  deriving Repr, DecidableEq

/-- `__init__` (lines 16-30) on a fresh directory: no faiss index, an
empty record list, an empty whoosh index. -/
def initDatabase : TermDatabase :=
  { termsData := [], faissVectors := none, whooshDocs := [] }

/-- A search-result row: a copy of a `terms_data` dict with the
transient `score` key attached. -/
structure SearchResult where
  entry : TermEntry
  score : Rat
  deriving Repr, DecidableEq

/-- External capabilities of the engine: `dist q t` is the L2 distance
between the encodings of `q` and `t` (the encoder is deterministic, so
distances are determined by the two strings); `whooshHits docs q limit`
is whoosh's scored hit list `(doc id, relevance)` for the query over the
given indexed documents. -/
structure Oracles where
  dist : String → String → Rat
  whooshHits : List WhooshDoc → String → Nat → List (Nat × Rat)

/-! ## term_database.py — alias and category tables (lines 99-137) -/

/-- `abbreviation_map` (lines 104-110). -/
def abbreviationMap : List (String × List String) :=
  [("鉄筋コンクリート", ["RC", "鉄コン"]),
   ("プレストレストコンクリート", ["PC"]),
   ("鉄骨鉄筋コンクリート", ["SRC"]),
   ("空調設備", ["空調", "エアコン", "AC"]),
   ("給排水設備", ["給排水"])]

/-- `_generate_aliases` (lines 99-119). -/
def generateAliases (term : String) : List String :=
  let aliases := match abbreviationMap.find? (fun p => p.1 == term) with
    | some p => p.2
    | none => []
  if strContainsSub term "の" then aliases ++ [term.replace "の" ""] else aliases

/-- The categories dict of `_categorize_term` (lines 123-130);
a Python dict literal iterates in insertion order. -/
def categoryTable : List (String × List String) :=
  [("構造", ["鉄筋", "コンクリート", "鉄骨", "基礎", "柱", "梁", "耐震"]),
   ("設備", ["空調", "給排水", "電気", "配管", "配線", "消防"]),
   ("仕上げ", ["塗装", "タイル", "クロス", "床", "天井", "壁"]),
   ("材料", ["セメント", "鋼材", "木材", "石材", "ガラス"]),
   ("施工", ["工事", "施工", "工程", "現場", "作業"]),
   ("管理", ["品質", "安全", "工程", "検査", "試験"])]

/-- `_categorize_term` (lines 121-137): first category one of whose
keywords occurs in the term, else `一般`. -/
def categorizeTerm (term : String) : String :=
  match categoryTable.find? (fun p => p.2.any (fun kw => strContainsSub term kw)) with
  | some p => p.1
  | none => "一般"

/-! ## term_database.py — build_from_terms (lines 49-97) -/

/-- The enhanced record built for input index `idx` (lines 62-70). -/
def entryOfInput (idx : Nat) (ti : TermInput) : TermEntry :=
  { id := idx, term := ti.term, aliases := generateAliases ti.term,
    category := categorizeTerm ti.term,
    confidence := ti.confidence.getD (8 / 10),
    frequency := ti.frequency.getD 1, context := "" }

/-- The whoosh document written for input index `idx` (lines 79-85). -/
def docOfInput (idx : Nat) (ti : TermInput) : WhooshDoc :=
  { docId := idx, term := ti.term,
    aliases := " ".intercalate (generateAliases ti.term),
    category := categorizeTerm ti.term, context := "" }

/-- `build_from_terms` (lines 49-97).  The loop APPENDS to
`self.terms_data` and the whoosh writer ADDS documents to the existing
index (neither is cleared); only `self.faiss_index` is created afresh.
Ids restart from 0 for every call (`enumerate(terms)`).  On an empty
input `np.array([])` has shape `(0,)` and `faiss_index.add` raises,
modelled as `none`. -/
def buildFromTerms (db : TermDatabase) (terms : List TermInput) : Option TermDatabase :=
  if terms.isEmpty then none
  else some
    { termsData := db.termsData ++ terms.enum.map (fun p => entryOfInput p.1 p.2),
      faissVectors := some (terms.map (fun ti => ti.term)),
      whooshDocs := db.whooshDocs ++ terms.enum.map (fun p => docOfInput p.1 p.2) }

/-! ## term_database.py — search_vector (lines 139-157) -/

/-- The float32 maximum: faiss pads missing neighbours (when `k`
exceeds `ntotal`) with label `-1` and distance `FLT_MAX`. -/
def fltMax : Rat := 2 ^ 128 - 2 ^ 104

/-- `faiss.IndexFlatL2.search` for one query: all stored vectors ranked
by ascending distance (ties by index), truncated to `k`, padded with
`(-1, FLT_MAX)` rows up to `k`. -/
def faissSearch (dist : String → String → Rat) (vecs : List String) (query : String)
    (k : Nat) : List (Int × Rat) :=
  let scored := (List.range vecs.length).map
    (fun (i : Nat) => ((i : Int), dist query (vecs.getD i "")))
  let sorted := List.insertionSort
    (fun a b => a.2 < b.2 ∨ (a.2 = b.2 ∧ a.1 ≤ b.1)) scored
  sorted.take k ++ List.replicate (k - vecs.length) ((-1 : Int), fltMax)

/-- Python list indexing `l[i]` with `int` index: negative indices count
from the end; out-of-range raises (`none`). -/
def pyIndex (l : List TermEntry) (i : Int) : Option TermEntry :=
  if i < 0 then
    if (-i).toNat ≤ l.length then l.get? (l.length - (-i).toNat) else none
  else l.get? i.toNat

/-- The result loop of `search_vector` (lines 150-155): the guard is
`idx < len(self.terms_data)` only — it does NOT exclude negative
labels, so `terms_data[idx]` is reached with `idx = -1`. -/
def svProcess (termsData : List TermEntry) : List (Int × Rat) → Option (List SearchResult)
  | [] => some []
  | p :: rest =>
    if p.1 < (termsData.length : Int) then
      match pyIndex termsData p.1 with
      | none => none
      | some e =>
        match svProcess termsData rest with
        | none => none
        | some rs => some (⟨e, 1 / (1 + p.2)⟩ :: rs)
    else svProcess termsData rest

/-- `search_vector` (lines 139-157): `[]` when no index is built, else
the faiss neighbours mapped through `terms_data`. -/
def searchVector (o : Oracles) (db : TermDatabase) (query : String) (k : Nat) :
    Option (List SearchResult) :=
  match db.faissVectors with
  | none => some []
  | some vecs => svProcess db.termsData (faissSearch o.dist vecs query k)

/-! ## term_database.py — search_text (lines 159-180) -/

/-- `search_text`: whoosh hits `(id, score)` mapped through
`terms_data`, keeping only ids below `len(self.terms_data)`. -/
def searchText (o : Oracles) (db : TermDatabase) (query : String) (limit : Nat) :
    List SearchResult :=
  (o.whooshHits db.whooshDocs query limit).foldl
    (fun acc h =>
      if hlt : h.1 < db.termsData.length then
        acc ++ [⟨db.termsData.get ⟨h.1, hlt⟩, h.2⟩]
      else acc) []

/-! ## term_database.py — hybrid_search (lines 182-219) -/

/-- `combined_scores[term] = v` — Python dict assignment: overwrite in
place if the key exists (keeping its position), else append. -/
def dictSet : List (String × Rat) → String → Rat → List (String × Rat)
  | [], t, v => [(t, v)]
  | (k, w) :: m, t, v => if k = t then (t, v) :: m else (k, w) :: dictSet m t v

/-- `combined_scores[term] += v` if present, else `= v` (lines 202-205). -/
def dictAddOrSet : List (String × Rat) → String → Rat → List (String × Rat)
  | [], t, v => [(t, v)]
  | (k, w) :: m, t, v => if k = t then (t, w + v) :: m else (k, w) :: dictAddOrSet m t v

/-- Dict lookup. -/
def alookup : List (String × Rat) → String → Option Rat
  | [], _ => none
  | (k, w) :: m, t => if k = t then some w else alookup m t

/-- `all_terms.add(term)` — set insertion, modelled in insertion order. -/
def addTerm (l : List String) (t : String) : List String :=
  if t ∈ l then l else l ++ [t]

/-- One vector result (lines 193-196): `all_terms.add(term)` and
`combined_scores[term] = alpha * score` (an overwriting assignment). -/
def vecStep (alpha : Rat) (st : List (String × Rat) × List String) (r : SearchResult) :
    List (String × Rat) × List String :=
  (dictSet st.1 r.entry.term (alpha * r.score), addTerm st.2 r.entry.term)

/-- One text result (lines 199-205). -/
def txtStep (alpha : Rat) (st : List (String × Rat) × List String) (r : SearchResult) :
    List (String × Rat) × List String :=
  (dictAddOrSet st.1 r.entry.term ((1 - alpha) * r.score), addTerm st.2 r.entry.term)

/-- The descending-score order of `final_results.sort(key=..., reverse=True)`
(line 217).  Python's sort is stable; `List.insertionSort` with this
relation is the same stable sort. -/
def scoreGe (a b : SearchResult) : Prop := b.score ≤ a.score

instance : DecidableRel scoreGe := fun a b => by
  unfold scoreGe
  infer_instance

instance : IsTotal SearchResult scoreGe :=
  ⟨fun a b => le_total b.score a.score⟩

instance : IsTrans SearchResult scoreGe :=
  ⟨fun _ _ _ hab hbc => le_trans hbc hab⟩

/-- A placeholder record, used only as the (unreachable) default of
`Option.getD` when a lookup is already known to succeed. -/
def defaultEntry : TermEntry :=
  { id := 0, term := "", aliases := [], category := "", confidence := 0,
    frequency := 0, context := "" }

/-- The merge of `hybrid_search` before the `[:k]` truncation
(lines 188-217): fold both result lists, rebuild one row per collected
term via a linear scan of `terms_data` by surface form
(`next(t for t in self.terms_data if t['term'] == term)`), then sort by
score descending (Python's stable sort).  `alookup ... |>.getD 0` can
never actually default: `all_terms` and the keys of `combined_scores`
are built together. -/
def hybridCombineAll (termsData : List TermEntry) (vres tres : List SearchResult)
    (alpha : Rat) : List SearchResult :=
  let st1 := vres.foldl (vecStep alpha) ([], [])
  let st2 := tres.foldl (txtStep alpha) st1
  List.insertionSort scoreGe
    (st2.2.filterMap (fun t =>
      (termsData.find? (fun e => e.term == t)).map
        (fun e => ⟨e, (alookup st2.1 t).getD 0⟩)))

/-- Lines 188-219 including the final `[:k]`. -/
def hybridCombine (termsData : List TermEntry) (vres tres : List SearchResult)
    (k : Nat) (alpha : Rat) : List SearchResult :=
  (hybridCombineAll termsData vres tres alpha).take k

/-- `hybrid_search` (lines 182-219): both searches are asked for `2k`
results, then merged and truncated to `k`. -/
def hybridSearch (o : Oracles) (db : TermDatabase) (query : String) (k : Nat)
    (alpha : Rat) : Option (List SearchResult) :=
  match searchVector o db query (k * 2) with
  | none => none
  | some vres => some (hybridCombine db.termsData vres (searchText o db query (k * 2)) k alpha)

/-- The dense (resp. sparse) score a term carries in a result list:
the score of its first row, 0 when absent. -/
def firstScoreOf (l : List SearchResult) (t : String) : Rat :=
  ((l.find? (fun r => r.entry.term == t)).map (fun r => r.score)).getD 0

/-- The surface forms collected by the merge, in insertion order: the
dense result terms followed by the sparse-only ones. -/
def mergedTerms (vres tres : List SearchResult) : List String :=
  (vres.map (fun r => r.entry.term)) ++
    (tres.map (fun r => r.entry.term)).filter
      (fun t => decide (t ∉ vres.map (fun r => r.entry.term)))

/-- The spec's description of the pre-sort merge output: one row per
collected surface form, carrying the record found for it in the
collection and the blended score
`alpha * denseScore + (1 - alpha) * sparseScore` with 0 for an absent
side.  `hybridCombineAll_closed_form` proves the implementation equal
to the stable descending sort of this list (given well-formed inputs). -/
def mergedRows (termsData : List TermEntry) (vres tres : List SearchResult)
    (alpha : Rat) : List SearchResult :=
  (mergedTerms vres tres).map
    (fun t =>
      ⟨(termsData.find? (fun e => e.term == t)).getD defaultEntry,
       alpha * firstScoreOf vres t + (1 - alpha) * firstScoreOf tres t⟩)

/-! ## term_database.py — load (lines 239-256) -/

/-- What `load()` finds on disk: `faissFile = none` means
`faiss.index` is absent; `termsFile = some none` means
`terms_data.pkl` exists but `pickle.load` raises on it. -/
structure DiskState where
  faissFile : Option (List String)
  termsFile : Option (Option (List TermEntry))
  deriving Repr, DecidableEq

/-- `load` (lines 239-256).  The whole body sits in a
`try/except Exception` that only logs, so no failure reaches the
caller; the faiss index is replaced BEFORE the records are read, so a
pickle failure leaves the new index paired with the old records. -/
def loadDatabase (db : TermDatabase) (disk : DiskState) : TermDatabase :=
  let db1 := match disk.faissFile with
    | some v => { db with faissVectors := some v }
    | none => db
  match disk.termsFile with
  | some (some ts) => { db1 with termsData := ts }
  | some none => db1
  | none => db1

/-! ## Concrete instances used to evaluate the model -/

/-- A record with surface form `A`, id 0. -/
def eA0 : TermEntry :=
  { id := 0, term := "A", aliases := [], category := "一般",
    confidence := 8 / 10, frequency := 1, context := "" }

/-- A second record with the same surface form `A`, id 1. -/
def eA1 : TermEntry :=
  { id := 1, term := "A", aliases := [], category := "一般",
    confidence := 8 / 10, frequency := 1, context := "" }

/-- A record with surface form `B`, id 0. -/
def eB : TermEntry :=
  { id := 0, term := "B", aliases := [], category := "一般",
    confidence := 8 / 10, frequency := 1, context := "" }

/-- A record with surface form `C`, id 1. -/
def eC : TermEntry :=
  { id := 1, term := "C", aliases := [], category := "一般",
    confidence := 8 / 10, frequency := 1, context := "" }

/-- An oracle with all embedding distances 0 and no whoosh hits. -/
def oZero : Oracles :=
  { dist := fun _ _ => 0, whooshHits := fun _ _ _ => [] }

/-- A built engine holding one record. -/
def dbOne : TermDatabase :=
  { termsData := [eB], faissVectors := some ["B"], whooshDocs := [] }

/-- A built engine holding two records that share the surface form `A`. -/
def dbDup : TermDatabase :=
  { termsData := [eA0, eA1], faissVectors := some ["A", "A"], whooshDocs := [] }

/-- The similarity score faiss's `FLT_MAX` padding distance turns into. -/
def fltTiny : Rat := 1 / (1 + fltMax)

/-! ## General helper lemmas -/

theorem foldl_const {α β : Type} (f : α → β → α) (a : α) (l : List β)
    (h : ∀ x y, f x y = x) : l.foldl f a = a := by
  induction l generalizing a with
  | nil => rfl
  | cons y ys ih => rw [List.foldl_cons, h, ih]

theorem string_length_ne_zero {s : String} (h : s ≠ "") : s.length ≠ 0 := by
  intro hlen
  apply h
  cases s with
  | mk data =>
    cases data with
    | nil => rfl
    | cons c cs => simp [String.length] at hlen

/-! ## Claim theorems

The concrete evaluations below use `decide`; the arithmetic operations
on `Rat` are marked irreducible in the library (an elaborator-side
setting the kernel does not see), so they are made semireducible for
this section. -/

section ConcreteEvaluations

attribute [local semireducible] Rat.add Rat.mul Rat.sub Rat.inv

set_option maxRecDepth 100000

/-- C10 (code_bug evaluation): on a built index holding a single record,
a dense search with `k = 2` makes faiss return the neighbour labels
`[0, -1]`; the guard `idx < len(self.terms_data)` admits `-1`, and
Python's negative indexing maps it to the LAST record, which therefore
appears in the results (here: duplicated, with the near-zero sentinel
similarity `1 / (1 + FLT_MAX)`), contradicting the claim that the `-1`
sentinel never causes a record to appear. -/
theorem search_vector_sentinel_yields_last_record :
    searchVector oZero dbOne "B" 2 = some [⟨eB, 1⟩, ⟨eB, fltTiny⟩] ∧ fltTiny ≠ 1 := by
  decide

/-- C2 (counterexample): with `alpha = 1`, `k = 1` on a one-record
engine, `hybrid_search` asks the dense index for `2k = 2 > 1` rows; the
`-1` padding row re-surfaces the sole record and its dict assignment
`combined_scores[term] = alpha * score` OVERWRITES the genuine dense
score with the sentinel similarity, so the hybrid output's score
differs from `search_vector`'s for the same query and `k`. -/
theorem hybrid_alpha_one_differs_from_dense :
    hybridSearch oZero dbOne "B" 1 1 = some [⟨eB, fltTiny⟩] ∧
    searchVector oZero dbOne "B" 1 = some [⟨eB, 1⟩] ∧ fltTiny ≠ 1 := by
  decide

/-- C1 (counterexample): two records share the surface form `A`; both
appear in the dense (2k) result set, yet the merge keys on the surface
form, not on record identity, so the two records collapse into ONE
output row (whose entry is found by a first-match scan of
`terms_data`), and its score is not `alpha * denseScore` of either
record's genuine similarity but of the overwritten sentinel row. -/
theorem hybrid_merge_by_term_collapses_records :
    hybridSearch oZero dbDup "A" 2 (1 / 2) = some [⟨eA0, (1 / 2) * fltTiny⟩] ∧
    searchVector oZero dbDup "A" 4 =
      some [⟨eA0, 1⟩, ⟨eA1, 1⟩, ⟨eA1, fltTiny⟩, ⟨eA1, fltTiny⟩] ∧
    eA0 ≠ eA1 := by
  decide

/-- C3 (code_bug evaluation): building on an already-built engine.
`build_from_terms` only re-creates the faiss index; it APPENDS to
`self.terms_data` and to the whoosh index.  After ingesting `工事` and
then rebuilding with `塗装`, the collection holds both terms with the
duplicated, non-contiguous id sequence `[0, 0]`, and the whoosh index
holds two documents — the previous collection was not replaced. -/
theorem rebuild_appends_not_replaces :
    ((buildFromTerms initDatabase [⟨"工事", none, none⟩]).bind
        (fun db => buildFromTerms db [⟨"塗装", none, none⟩])).map
      (fun db => (db.termsData.map (fun e => e.id),
                  db.termsData.map (fun e => e.term),
                  db.whooshDocs.length,
                  db.faissVectors)) =
      some ([0, 0], ["工事", "塗装"], 2, some ["塗装"]) := by
  decide

/-- C4 (counterexample): the engine holds record `B` and no dense
index; on disk the faiss file is readable but the records file is
corrupt (`pickle.load` raises).  `load()` replaces the dense index
BEFORE reading the records and its `except` block swallows the error,
so the engine ends up with the reloaded dense index paired with the old
collection — neither the pre-load state nor a full load, and no failure
is surfaced (the function returns normally). -/
theorem load_failure_leaves_partial_state :
    loadDatabase { termsData := [eB], faissVectors := none, whooshDocs := [] }
        { faissFile := some ["X"], termsFile := some none } =
      { termsData := [eB], faissVectors := some ["X"], whooshDocs := [] } ∧
    ({ termsData := [eB], faissVectors := some ["X"], whooshDocs := [] } : TermDatabase) ≠
      { termsData := [eB], faissVectors := none, whooshDocs := [] } := by
  decide

end ConcreteEvaluations

/-- C4 (amended): when the records file fails to read, `load` returns
normally (the `except Exception` block only logs) with the dense index
replaced by the on-disk one and the previous record collection kept —
a partially populated state, for every starting state. -/
theorem load_failure_amended (db : TermDatabase) (v : List String) :
    loadDatabase db { faissFile := some v, termsFile := some none } =
      { db with faissVectors := some v } := by
  rfl

/-- C6 (counterexample): `_is_construction_term("")` raises
`ZeroDivisionError`: no construction keyword occurs in the empty
string, so control reaches `katakana_ratio = ... / len(term)` with
`len(term) = 0`.  The division is not guarded. -/
theorem is_construction_term_empty_raises : isConstructionTerm "" = none := by
  rfl

/-- C6 (amended): for every NON-empty phrase the heuristic returns a
boolean without raising; only the empty phrase divides by zero (and the
phrase-builder's flush paths only ever pass joins of at least two
token surfaces). -/
theorem is_construction_term_total_on_nonempty (s : String) (h : s ≠ "") :
    (isConstructionTerm s).isSome := by
  unfold isConstructionTerm
  split
  · rfl
  · split
    · exact absurd (by assumption) (string_length_ne_zero h)
    · split
      · rfl
      · split <;> rfl

/-- Witness for C6 (amended) at the concrete phrase `耐震`. -/
theorem is_construction_term_total_on_nonempty_witness :
    ("耐震" : String) ≠ "" ∧ (isConstructionTerm "耐震").isSome :=
  ⟨by decide, is_construction_term_total_on_nonempty "耐震" (by decide)⟩

/-- C5: searching an engine whose index holds zero records — the
freshly initialized engine: `faiss_index is None`, `terms_data = []`,
empty whoosh index — returns an empty result list from the dense, the
sparse and the hybrid search, for every query, `k`, `limit`, `alpha`
and every oracle, and none of the three raises. -/
theorem search_empty_database_returns_empty (o : Oracles) (q : String)
    (k lim : Nat) (alpha : Rat) :
    searchVector o initDatabase q k = some [] ∧
    searchText o initDatabase q lim = [] ∧
    hybridSearch o initDatabase q k alpha = some [] := by
  have ht : ∀ lim', searchText o initDatabase q lim' = [] := by
    intro lim'
    unfold searchText
    exact foldl_const _ _ _ (fun x y => dif_neg (Nat.not_lt_zero _))
  refine ⟨rfl, ht lim, ?_⟩
  show some (hybridCombine initDatabase.termsData [] (searchText o initDatabase q (k * 2)) k alpha) = some []
  rw [ht (k * 2)]
  simp [hybridCombine, hybridCombineAll]

/-! ## Helper lemmas for the extraction pipeline -/

theorem foldl_preserves {α β : Type} (P : α → Prop) (f : α → β → α) (l : List β) (a : α)
    (hstep : ∀ st x, P st → P (f st x)) (ha : P a) : P (l.foldl f a) := by
  induction l generalizing a with
  | nil => exact ha
  | cons x xs ih => exact ih _ (hstep _ _ ha)

theorem morphRun_cons (acc : ExtractState × List String) (tk : Token) (rest : List Token) :
    morphRun acc (tk :: rest) =
      match morphStep acc tk with
      | none => none
      | some acc2 => morphRun acc2 rest := rfl

theorem morphRun_append (xs ys : List Token) (acc : ExtractState × List String) :
    morphRun acc (xs ++ ys) =
      match morphRun acc xs with
      | none => none
      | some acc2 => morphRun acc2 ys := by
  induction xs generalizing acc with
  | nil => rfl
  | cons tk rest ih =>
    rw [List.cons_append, morphRun_cons, morphRun_cons]
    cases morphStep acc tk with
    | none => rfl
    | some acc2 => exact ih acc2

theorem morphRun_nouns (run : List Token) (acc : ExtractState × List String)
    (h : ∀ tk ∈ run, tk.pos = nounPos) :
    morphRun acc run = some (acc.1, acc.2 ++ run.map (fun tk => tk.surface)) := by
  induction run generalizing acc with
  | nil => simp [morphRun]
  | cons tk rest ih =>
    have htk : tk.pos = nounPos := h tk (List.mem_cons_self tk rest)
    rw [morphRun_cons]
    unfold morphStep
    rw [if_pos htk]
    show morphRun (acc.1, acc.2 ++ [tk.surface]) rest = _
    rw [ih (acc.1, acc.2 ++ [tk.surface]) (fun t ht => h t (List.mem_cons_of_mem tk ht))]
    simp

theorem morphRun_last_not_noun (pre : List Token) (acc : ExtractState × List String)
    (st' : ExtractState) (buf' : List String)
    (hne : pre ≠ [])
    (hlast : ∀ tk, pre.getLast? = some tk → tk.pos ≠ nounPos)
    (hrun : morphRun acc pre = some (st', buf')) : buf' = [] := by
  rcases List.eq_nil_or_concat pre with h | ⟨L, b, hL⟩
  · exact absurd h hne
  · rw [List.concat_eq_append] at hL
    subst hL
    rw [morphRun_append] at hrun
    cases hmr : morphRun acc L with
    | none => simp only [hmr] at hrun; cases hrun
    | some acc2 =>
      simp only [hmr] at hrun
      have hb : b.pos ≠ nounPos := by
        apply hlast
        simp
      rw [morphRun_cons] at hrun
      unfold morphStep at hrun
      rw [if_neg hb] at hrun
      cases hfm : flushMid acc2.1 acc2.2 with
      | none => simp only [hfm] at hrun; cases hrun
      | some st2 =>
        simp only [hfm, morphRun, Option.some.injEq, Prod.mk.injEq] at hrun
        exact hrun.2.symm

theorem patternStep_inv (st : ExtractState) (m : String) (h : seenInv st) :
    seenInv (patternStep st m) := by
  unfold patternStep
  split
  · rename_i hc
    obtain ⟨hmap, hnd⟩ := h
    constructor
    · simp [hmap]
    · simp only [List.nodup_append, hnd, List.nodup_cons]
      exact ⟨by simp, by simpa using fun hm => hc.1 hm⟩
  · exact h

theorem patternPhase_inv (findall : String → String → List String) (text : String) :
    seenInv (patternPhase findall text) := by
  unfold patternPhase
  apply foldl_preserves seenInv _ _ _
    (fun st p hp => foldl_preserves seenInv _ _ _ (fun st' m hm => patternStep_inv st' m hm) hp)
  exact ⟨rfl, List.nodup_nil⟩

theorem flushMid_inv (st : ExtractState) (buf : List String) (st2 : ExtractState)
    (h : seenInv st) (hfm : flushMid st buf = some st2) : seenInv st2 := by
  unfold flushMid at hfm
  split at hfm
  · split at hfm
    · injection hfm with h2; exact h2 ▸ h
    · rename_i hnotin
      split at hfm
      · cases hfm
      · injection hfm with h2
        obtain ⟨hmap, hnd⟩ := h
        subst h2
        constructor
        · simp [hmap]
        · simp only [List.nodup_append, hnd, List.nodup_cons]
          exact ⟨by simp, by simpa using fun hm => hnotin hm⟩
      · injection hfm with h2; exact h2 ▸ h
  · injection hfm with h2; exact h2 ▸ h

theorem morphStep_inv (acc : ExtractState × List String) (tk : Token)
    (acc2 : ExtractState × List String)
    (h : seenInv acc.1) (hms : morphStep acc tk = some acc2) : seenInv acc2.1 := by
  unfold morphStep at hms
  split at hms
  · injection hms with h2
    rw [← h2]
    exact h
  · cases hfm : flushMid acc.1 acc.2 with
    | none => simp only [hfm] at hms; cases hms
    | some st2 =>
      simp only [hfm, Option.some.injEq] at hms
      rw [← hms]
      exact flushMid_inv acc.1 acc.2 st2 h hfm

theorem morphRun_inv (tokens : List Token) (acc : ExtractState × List String)
    (st' : ExtractState) (buf' : List String)
    (h : seenInv acc.1) (hrun : morphRun acc tokens = some (st', buf')) : seenInv st' := by
  induction tokens generalizing acc with
  | nil =>
    unfold morphRun at hrun
    injection hrun with h2
    rw [show st' = acc.1 from (congrArg Prod.fst h2).symm]
    exact h
  | cons tk rest ih =>
    rw [morphRun_cons] at hrun
    cases hms : morphStep acc tk with
    | none => simp only [hms] at hrun; cases hrun
    | some acc2 =>
      simp only [hms] at hrun
      exact ih acc2 (morphStep_inv acc tk acc2 h hms) hrun

theorem finalFlush_nodup (st : ExtractState) (buf : List String) (out : List Candidate)
    (h : seenInv st) (hff : finalFlush st buf = some out) :
    (out.map (fun c => c.term)).Nodup := by
  obtain ⟨hmap, hnd⟩ := h
  have hbase : (st.terms.map (fun c => c.term)).Nodup := hmap ▸ hnd
  unfold finalFlush at hff
  split at hff
  · split at hff
    · injection hff with h2; exact h2 ▸ hbase
    · rename_i hnotin
      split at hff
      · cases hff
      · injection hff with h2
        subst h2
        simp only [List.map_append, List.map_cons, List.map_nil, List.nodup_append]
        refine ⟨hbase, List.nodup_singleton _, ?_⟩
        intro a ha hb
        simp only [List.mem_singleton] at hb
        exact hnotin (by rw [hmap]; exact hb ▸ ha)
      · injection hff with h2; exact h2 ▸ hbase
  · injection hff with h2; exact h2 ▸ hbase

/-- C8: for every text, regex oracle and token stream, if extraction
returns (does not raise), the emitted candidates have pairwise-distinct
surface forms: one `seen_terms` set is threaded through the pattern
loop, every mid-stream flush and the terminal flush, and each emission
is guarded by it — a later rule or extractor skips an already-emitted
string even when its category or kind differs. -/
theorem extract_terms_nodup (findall : String → String → List String) (text : String)
    (tokens : List Token) (out : List Candidate)
    (h : extractTermsFromText findall text tokens = some out) :
    (out.map (fun c => c.term)).Nodup := by
  unfold extractTermsFromText at h
  cases hmr : morphRun (patternPhase findall text, []) tokens with
  | none => rw [hmr] at h; cases h
  | some acc2 =>
    rw [hmr] at h
    obtain ⟨st, buf⟩ := acc2
    exact finalFlush_nodup st buf out
      (morphRun_inv tokens _ st buf (patternPhase_inv findall text) hmr) h

/-- C7: if the token stream ends in a run of two or more noun tokens
(the token before the run, when any, is not a noun) and the
morphological loop completes as `some (st, buf)`, then the terminal
buffer `buf` is exactly that run's surface forms, and — when the joined
phrase passes the construction-term heuristic and has not been seen —
`extract_terms_from_text` emits it as the LAST candidate, a
`morphological` one with confidence 0.8: a document ending in a noun
phrase does not lose it. -/
theorem terminal_noun_buffer_flushed
    (findall : String → String → List String) (text : String)
    (pre run : List Token) (st : ExtractState) (buf : List String)
    (hn : ∀ tk ∈ run, tk.pos = nounPos)
    (hlen2 : 2 ≤ run.length)
    (hlast : ∀ tk, pre.getLast? = some tk → tk.pos ≠ nounPos)
    (hall : morphRun (patternPhase findall text, []) (pre ++ run) = some (st, buf)) :
    buf = run.map (fun tk => tk.surface) ∧
    (String.join (run.map (fun tk => tk.surface)) ∉ st.seen →
     isConstructionTerm (String.join (run.map (fun tk => tk.surface))) = some true →
     extractTermsFromText findall text (pre ++ run) =
       some (st.terms ++
         [⟨String.join (run.map (fun tk => tk.surface)), "morphological", 8 / 10⟩])) := by
  have hcopy := hall
  rw [morphRun_append] at hcopy
  cases hmr : morphRun (patternPhase findall text, []) pre with
  | none => simp only [hmr] at hcopy; cases hcopy
  | some acc1 =>
    simp only [hmr] at hcopy
    rw [morphRun_nouns run acc1 hn] at hcopy
    injection hcopy with hpair
    have hst : acc1.1 = st := congrArg Prod.fst hpair
    have hbufe : acc1.2 ++ run.map (fun tk => tk.surface) = buf := congrArg Prod.snd hpair
    have hb2 : acc1.2 = [] := by
      cases hpre : pre with
      | nil =>
        subst hpre
        unfold morphRun at hmr
        injection hmr with hh
        rw [← hh]
      | cons p ps =>
        rw [hpre] at hmr hlast
        exact morphRun_last_not_noun (p :: ps) _ acc1.1 acc1.2 (by simp) hlast hmr
    have hbuf : buf = run.map (fun tk => tk.surface) := by
      rw [← hbufe, hb2, List.nil_append]
    refine ⟨hbuf, fun hnotin hpass => ?_⟩
    unfold extractTermsFromText
    rw [hall]
    show finalFlush st buf = _
    rw [hbuf]
    unfold finalFlush
    have hlen : 2 ≤ (run.map (fun tk => tk.surface)).length := by
      rw [List.length_map]
      exact hlen2
    rw [if_pos hlen, if_neg hnotin, hpass]

/-- Witness for C7: the stream `耐震 補強` (two nouns, empty prefix)
with an empty regex oracle; the run's joined phrase `耐震補強` passes
the heuristic, is unseen, and is emitted as the last candidate. -/
theorem terminal_noun_buffer_flushed_witness :
    (∀ tk ∈ ([⟨"耐震", "名詞"⟩, ⟨"補強", "名詞"⟩] : List Token), tk.pos = nounPos) ∧
    2 ≤ ([⟨"耐震", "名詞"⟩, ⟨"補強", "名詞"⟩] : List Token).length ∧
    (∀ tk : Token, ([] : List Token).getLast? = some tk → tk.pos ≠ nounPos) ∧
    morphRun (patternPhase (fun _ _ => []) "x", [])
        ([] ++ [⟨"耐震", "名詞"⟩, ⟨"補強", "名詞"⟩]) =
      some (⟨[], []⟩, ["耐震", "補強"]) ∧
    (["耐震", "補強"] =
        ([⟨"耐震", "名詞"⟩, ⟨"補強", "名詞"⟩] : List Token).map (fun tk => tk.surface) ∧
     (String.join (([⟨"耐震", "名詞"⟩, ⟨"補強", "名詞"⟩] : List Token).map
          (fun tk => tk.surface)) ∉ (⟨[], []⟩ : ExtractState).seen →
      isConstructionTerm (String.join (([⟨"耐震", "名詞"⟩, ⟨"補強", "名詞"⟩] :
          List Token).map (fun tk => tk.surface))) = some true →
      extractTermsFromText (fun _ _ => []) "x"
          ([] ++ [⟨"耐震", "名詞"⟩, ⟨"補強", "名詞"⟩]) =
        some ((⟨[], []⟩ : ExtractState).terms ++
          [⟨String.join (([⟨"耐震", "名詞"⟩, ⟨"補強", "名詞"⟩] : List Token).map
              (fun tk => tk.surface)), "morphological", 8 / 10⟩]))) :=
  ⟨by decide, by decide, by simp, by decide,
   terminal_noun_buffer_flushed (fun _ _ => []) "x" []
     [⟨"耐震", "名詞"⟩, ⟨"補強", "名詞"⟩] ⟨[], []⟩ ["耐震", "補強"]
     (by decide) (by decide) (by simp) (by decide)⟩

/-! ## Helper lemmas for the batch aggregation (extract_terms_from_pdfs) -/

theorem foldl_flatten {α β : Type} (f : α → β → α) (a : α) (L : List (List β)) :
    L.foldl (fun acc l => l.foldl f acc) a = (L.flatten).foldl f a := by
  induction L generalizing a with
  | nil => rfl
  | cons l ls ih => simp only [List.foldl_cons, List.flatten_cons, List.foldl_append, ih]

theorem nlookup_nbump (m : List (String × Nat)) (t s : String) :
    nlookup (nbump m t) s =
      if s = t then (nlookup m t).map (fun n => n + 1) else nlookup m s := by
  induction m with
  | nil =>
    by_cases hs : s = t <;> simp [nbump, nlookup, hs]
  | cons p m ih =>
    obtain ⟨k, n⟩ := p
    by_cases hk : k = t
    · subst hk
      unfold nbump
      rw [if_pos rfl]
      by_cases hs : s = k
      · subst hs
        simp [nlookup]
      · have hs' : ¬(k = s) := fun h => hs h.symm
        simp [nlookup, hs, hs']
    · unfold nbump
      rw [if_neg hk]
      by_cases hs : s = k
      · subst hs
        have hs' : ¬(s = t) := fun h => hk (h ▸ rfl)
        simp [nlookup, hs']
      · have hs' : ¬(k = s) := fun h => hs h.symm
        simp only [nlookup, if_neg hs']
        rw [ih]
        by_cases hst : s = t
        · rw [if_pos hst, if_pos hst]
          simp only [nlookup, if_neg hk]
        · rw [if_neg hst, if_neg hst]

theorem nlookup_append_one (m : List (String × Nat)) (t s : String) :
    nlookup (m ++ [(t, 1)]) s =
      match nlookup m s with
      | some n => some n
      | none => if s = t then some 1 else none := by
  induction m with
  | nil =>
    show (if t = s then some 1 else none) = if s = t then some 1 else none
    by_cases hs : s = t
    · rw [if_pos hs.symm, if_pos hs]
    · rw [if_neg (fun h => hs h.symm), if_neg hs]
  | cons p m ih =>
    obtain ⟨k, n⟩ := p
    show (if k = s then some n else nlookup (m ++ [(t, 1)]) s) = _
    by_cases hs : k = s
    · rw [if_pos hs]
      show _ = (match (if k = s then some n else nlookup m s : Option Nat) with
        | some n => some n
        | none => if s = t then some 1 else none)
      rw [if_pos hs]
    · rw [if_neg hs, ih]
      show _ = (match (if k = s then some n else nlookup m s : Option Nat) with
        | some n => some n
        | none => if s = t then some 1 else none)
      rw [if_neg hs]

theorem batchFold_freq (acc : List (String × Nat) × List Candidate) (c : Candidate)
    (t : String) :
    (nlookup (batchFold acc c).1 t).getD 0 =
      (nlookup acc.1 t).getD 0 + (if c.term == t then 1 else 0) := by
  unfold batchFold
  cases hl : nlookup acc.1 c.term with
  | some n =>
    show (nlookup (nbump acc.1 c.term) t).getD 0 = _
    rw [nlookup_nbump]
    by_cases ht : t = c.term
    · subst ht
      rw [if_pos rfl, hl, if_pos (beq_self_eq_true c.term)]
      simp
    · have hb : ¬((c.term == t) = true) := by
        rw [beq_iff_eq]
        exact fun h => ht h.symm
      rw [if_neg ht, if_neg hb]
      simp
  | none =>
    show (nlookup (acc.1 ++ [(c.term, 1)]) t).getD 0 = _
    rw [nlookup_append_one]
    by_cases ht : t = c.term
    · subst ht
      rw [hl, if_pos (beq_self_eq_true c.term)]
      show ((if c.term = c.term then some 1 else none : Option Nat)).getD 0 = _
      rw [if_pos rfl]
      simp
    · have hb : ¬((c.term == t) = true) := by
        rw [beq_iff_eq]
        exact fun h => ht h.symm
      rw [if_neg hb]
      cases hlt : nlookup acc.1 t with
      | some n =>
        simp
      | none =>
        rw [if_neg ht]
        simp

theorem batch_fold_freq (cs : List Candidate) (acc : List (String × Nat) × List Candidate)
    (t : String) :
    (nlookup ((cs.foldl batchFold acc).1) t).getD 0 =
      (nlookup acc.1 t).getD 0 + cs.countP (fun c => c.term == t) := by
  induction cs generalizing acc with
  | nil => simp
  | cons c cs ih =>
    rw [List.foldl_cons, ih, batchFold_freq, List.countP_cons]
    omega

theorem batchFold_none (acc : List (String × Nat) × List Candidate) (c : Candidate)
    (t : String) (h : nlookup (batchFold acc c).1 t = none) :
    nlookup acc.1 t = none ∧ t ≠ c.term := by
  unfold batchFold at h
  cases hl : nlookup acc.1 c.term with
  | some n =>
    rw [hl] at h
    rw [nlookup_nbump] at h
    by_cases ht : t = c.term
    · subst ht
      rw [if_pos rfl, hl] at h
      cases h
    · rw [if_neg ht] at h
      exact ⟨h, ht⟩
  | none =>
    rw [hl] at h
    rw [nlookup_append_one] at h
    cases hlt : nlookup acc.1 t with
    | some n => rw [hlt] at h; cases h
    | none =>
      rw [hlt] at h
      by_cases ht : t = c.term
      · rw [if_pos ht] at h; cases h
      · exact ⟨rfl, ht⟩

theorem batch_fold_first (cs : List Candidate) (acc : List (String × Nat) × List Candidate)
    (c : Candidate) (h : c ∈ (cs.foldl batchFold acc).2) :
    c ∈ acc.2 ∨
      (cs.find? (fun d => d.term == c.term) = some c ∧ nlookup acc.1 c.term = none) := by
  induction cs generalizing acc with
  | nil => exact Or.inl h
  | cons d cs ih =>
    rw [List.foldl_cons] at h
    rcases ih (batchFold acc d) h with h2 | ⟨hfind, hnone⟩
    · unfold batchFold at h2
      cases hl : nlookup acc.1 d.term with
      | some n =>
        rw [hl] at h2
        exact Or.inl h2
      | none =>
        rw [hl] at h2
        rcases List.mem_append.mp h2 with h3 | h3
        · exact Or.inl h3
        · simp only [List.mem_singleton] at h3
          subst h3
          refine Or.inr ⟨?_, hl⟩
          simp [List.find?_cons]
    · obtain ⟨hnacc, hne⟩ := batchFold_none acc d c.term hnone
      refine Or.inr ⟨?_, hnacc⟩
      rw [List.find?_cons_of_neg, hfind]
      simp [beq_iff_eq]
      exact fun h => hne h.symm

/-- C9: in batch extraction, every produced row's stored frequency is
the number of occurrences of its surface form across the concatenated
per-document candidate lists, and its stored confidence is
`min(1.0, raw + 0.1)` exactly when that frequency exceeds 3 (applied
once, independently of how far it exceeds 3), else the raw confidence —
the confidence carried by the term's first occurrence. -/
theorem batch_confidence_boost (docsTerms : List (List Candidate)) (e : BatchEntry)
    (h : e ∈ extractTermsFromPdfs docsTerms) :
    e.frequency = (docsTerms.flatten).countP (fun c => c.term == e.term) ∧
    e.confidence = (if 3 < e.frequency then min 1 (rawConfOf docsTerms e.term + 1 / 10)
                    else rawConfOf docsTerms e.term) := by
  unfold extractTermsFromPdfs at h
  rw [foldl_flatten] at h
  have h2 : e ∈ ((docsTerms.flatten).foldl batchFold ([], [])).2.map (fun c =>
      ({ term := c.term, ckind := c.ckind,
         frequency := (nlookup ((docsTerms.flatten).foldl batchFold ([], [])).1 c.term).getD 0,
         confidence :=
           if 3 < (nlookup ((docsTerms.flatten).foldl batchFold ([], [])).1 c.term).getD 0 then
             min 1 (c.confidence + 1 / 10)
           else c.confidence } : BatchEntry)) :=
    (List.perm_insertionSort batchLe _).mem_iff.mp h
  rw [List.mem_map] at h2
  obtain ⟨c, hc, hce⟩ := h2
  have hfirst : (docsTerms.flatten).find? (fun d => d.term == c.term) = some c := by
    rcases batch_fold_first (docsTerms.flatten) ([], []) c hc with h3 | ⟨h3, _⟩
    · cases h3
    · exact h3
  have hraw : rawConfOf docsTerms c.term = c.confidence := by
    unfold rawConfOf
    rw [hfirst]
    rfl
  have hfreq : (nlookup ((docsTerms.flatten).foldl batchFold ([], [])).1 c.term).getD 0 =
      (docsTerms.flatten).countP (fun d => d.term == c.term) := by
    rw [batch_fold_freq]
    simp [nlookup]
  subst hce
  rw [hfreq]
  exact ⟨rfl, by rw [hraw]⟩

/-! ## Helper lemmas for the hybrid merge -/

theorem alookup_dictSet (m : List (String × Rat)) (t : String) (v : Rat) (s : String) :
    alookup (dictSet m t v) s = if s = t then some v else alookup m s := by
  induction m with
  | nil =>
    by_cases hs : s = t
    · rw [hs]
      simp [dictSet, alookup]
    · simp [dictSet, alookup, hs, Ne.symm hs]
  | cons p m ih =>
    obtain ⟨k, w⟩ := p
    by_cases hk : k = t
    · subst hk
      unfold dictSet
      rw [if_pos rfl]
      by_cases hs : s = k
      · subst hs
        simp [alookup]
      · have hs' : ¬(k = s) := fun h => hs h.symm
        simp [alookup, hs, hs']
    · unfold dictSet
      rw [if_neg hk]
      by_cases hs : s = k
      · subst hs
        have hs' : ¬(s = t) := fun h => hk (h ▸ rfl)
        simp [alookup, hs']
      · have hs' : ¬(k = s) := fun h => hs h.symm
        simp only [alookup, if_neg hs']
        exact ih

theorem alookup_dictAddOrSet (m : List (String × Rat)) (t : String) (v : Rat) (s : String) :
    alookup (dictAddOrSet m t v) s =
      if s = t then some ((alookup m t).getD 0 + v) else alookup m s := by
  induction m with
  | nil =>
    by_cases hs : s = t
    · rw [hs]
      simp [dictAddOrSet, alookup]
    · simp [dictAddOrSet, alookup, hs, Ne.symm hs]
  | cons p m ih =>
    obtain ⟨k, w⟩ := p
    by_cases hk : k = t
    · subst hk
      unfold dictAddOrSet
      rw [if_pos rfl]
      by_cases hs : s = k
      · subst hs
        simp [alookup]
      · have hs' : ¬(k = s) := fun h => hs h.symm
        simp [alookup, hs, hs']
    · unfold dictAddOrSet
      rw [if_neg hk]
      by_cases hs : s = k
      · subst hs
        have hs' : ¬(s = t) := fun h => hk (h ▸ rfl)
        simp [alookup, hs']
      · have hs' : ¬(k = s) := fun h => hs h.symm
        simp only [alookup, if_neg hs', if_neg hk]
        exact ih

theorem mem_addTerm (l : List String) (t s : String) :
    s ∈ addTerm l t ↔ s ∈ l ∨ s = t := by
  unfold addTerm
  by_cases ht : t ∈ l
  · rw [if_pos ht]
    constructor
    · exact Or.inl
    · rintro (h | h)
      · exact h
      · exact h ▸ ht
  · rw [if_neg ht]
    simp

theorem foldl_addTerm_formula (l : List String) (a : List String) (hl : l.Nodup) :
    l.foldl addTerm a = a ++ l.filter (fun x => decide (x ∉ a)) := by
  induction l generalizing a with
  | nil => simp
  | cons x xs ih =>
    rw [List.foldl_cons]
    have hxs : xs.Nodup := hl.of_cons
    have hx : x ∉ xs := (List.nodup_cons.mp hl).1
    by_cases hxa : x ∈ a
    · rw [show addTerm a x = a from if_pos hxa]
      rw [ih a hxs]
      congr 1
      rw [List.filter_cons]
      simp [hxa]
    · rw [show addTerm a x = a ++ [x] from if_neg hxa]
      rw [ih (a ++ [x]) hxs]
      rw [List.filter_cons, if_pos (decide_eq_true hxa)]
      rw [List.append_assoc, List.singleton_append]
      congr 2
      apply List.filter_congr
      intro y hy
      have hyx : y ≠ x := fun h => hx (h ▸ hy)
      simp [hyx, List.mem_append]

theorem prod_foldl {A B C : Type} (f : A → C → A) (g : B → C → B) (l : List C)
    (a : A) (b : B) :
    l.foldl (fun p x => (f p.1 x, g p.2 x)) (a, b) = (l.foldl f a, l.foldl g b) := by
  induction l generalizing a b with
  | nil => rfl
  | cons x xs ih => exact ih (f a x) (g b x)

theorem find?_self_of_nodup {α β : Type} [DecidableEq β] (f : α → β) (l : List α)
    (r : α) (hnd : (l.map f).Nodup) (hr : r ∈ l) :
    l.find? (fun x => f x == f r) = some r := by
  induction l with
  | nil => cases hr
  | cons x xs ih =>
    have hnd2 : (xs.map f).Nodup := by
      rw [List.map_cons] at hnd
      exact hnd.of_cons
    by_cases hxr : f x = f r
    · have hx_eq : x = r := by
        rcases List.mem_cons.mp hr with h | h
        · exact h.symm
        · exfalso
          rw [List.map_cons] at hnd
          exact (List.nodup_cons.mp hnd).1 (hxr ▸ List.mem_map_of_mem f h)
      subst hx_eq
      exact List.find?_cons_of_pos _ (by simp)
    · have hr2 : r ∈ xs := by
        rcases List.mem_cons.mp hr with h | h
        · exact absurd (congrArg f h.symm) hxr
        · exact h
      rw [List.find?_cons_of_neg _ (by simp [hxr])]
      exact ih hnd2 hr2

theorem filterMap_eq_map_of_some {α β : Type} (l : List α) (f : α → Option β) (g : α → β)
    (h : ∀ x ∈ l, f x = some (g x)) : l.filterMap f = l.map g := by
  induction l with
  | nil => rfl
  | cons x xs ih =>
    rw [List.filterMap_cons, h x (List.mem_cons_self x xs), List.map_cons,
        ih (fun y hy => h y (List.mem_cons_of_mem x hy))]
theorem vec_fold_lookup (alpha : Rat) (vres : List SearchResult)
    (hv : (vres.map (fun r => r.entry.term)).Nodup) (m : List (String × Rat)) (t : String) :
    alookup (vres.foldl (fun m r => dictSet m r.entry.term (alpha * r.score)) m) t =
      match vres.find? (fun r => r.entry.term == t) with
      | some r => some (alpha * r.score)
      | none => alookup m t := by
  induction vres generalizing m with
  | nil => rfl
  | cons r rs ih =>
    have hnd2 : (rs.map (fun x => x.entry.term)).Nodup := by
      rw [List.map_cons] at hv
      exact hv.of_cons
    rw [List.foldl_cons]
    by_cases hrt : r.entry.term = t
    · rw [List.find?_cons_of_pos _ (by simp [hrt])]
      have htnot : rs.find? (fun x => x.entry.term == t) = none := by
        rw [List.find?_eq_none]
        intro x hx
        simp only [beq_iff_eq]
        intro hxt
        rw [List.map_cons] at hv
        exact (List.nodup_cons.mp hv).1 (by rw [hrt, ← hxt]; exact List.mem_map_of_mem _ hx)
      rw [ih hnd2]
      simp only [htnot]
      rw [alookup_dictSet, if_pos hrt.symm]
    · rw [List.find?_cons_of_neg _ (by simp [hrt])]
      rw [ih hnd2]
      cases hfind : rs.find? (fun x => x.entry.term == t) with
      | some x => simp only [hfind]
      | none =>
        simp only [hfind]
        rw [alookup_dictSet, if_neg (fun h => hrt h.symm)]

theorem txt_fold_lookup (alpha : Rat) (tres : List SearchResult)
    (ht : (tres.map (fun r => r.entry.term)).Nodup) (m : List (String × Rat)) (t : String) :
    alookup (tres.foldl (fun m r => dictAddOrSet m r.entry.term ((1 - alpha) * r.score)) m) t =
      match tres.find? (fun r => r.entry.term == t) with
      | some r => some ((alookup m t).getD 0 + (1 - alpha) * r.score)
      | none => alookup m t := by
  induction tres generalizing m with
  | nil => rfl
  | cons r rs ih =>
    have hnd2 : (rs.map (fun x => x.entry.term)).Nodup := by
      rw [List.map_cons] at ht
      exact ht.of_cons
    rw [List.foldl_cons]
    by_cases hrt : r.entry.term = t
    · rw [List.find?_cons_of_pos _ (by simp [hrt])]
      have htnot : rs.find? (fun x => x.entry.term == t) = none := by
        rw [List.find?_eq_none]
        intro x hx
        simp only [beq_iff_eq]
        intro hxt
        rw [List.map_cons] at ht
        exact (List.nodup_cons.mp ht).1 (by rw [hrt, ← hxt]; exact List.mem_map_of_mem _ hx)
      rw [ih hnd2]
      simp only [htnot]
      rw [alookup_dictAddOrSet, if_pos hrt.symm, hrt]
    · rw [List.find?_cons_of_neg _ (by simp [hrt])]
      rw [ih hnd2]
      cases hfind : rs.find? (fun x => x.entry.term == t) with
      | some x =>
        simp only [hfind]
        rw [alookup_dictAddOrSet, if_neg (fun h => hrt h.symm)]
      | none =>
        simp only [hfind]
        rw [alookup_dictAddOrSet, if_neg (fun h => hrt h.symm)]

theorem take_of_sorted_perm_pos_zero (m : List SearchResult) :
    ∀ (l z : List SearchResult), l.Perm (m ++ z) → l.Pairwise scoreGe →
      m.Pairwise (fun a b => b.score < a.score) → (∀ r ∈ m, 0 < r.score) →
      (∀ r ∈ z, r.score = 0) → l.take m.length = m := by
  induction m with
  | nil =>
    intro l z _ _ _ _ _
    rfl
  | cons a m ih =>
    intro l z hperm hl hm hmp hz
    cases l with
    | nil =>
      have := hperm.length_eq
      simp at this
    | cons b l2 =>
      have hba : b = a := by
        have hbmem : b ∈ a :: (m ++ z) := hperm.mem_iff.mp (List.mem_cons_self b l2)
        rcases List.mem_cons.mp hbmem with h | h
        · exact h
        · have hamem : a ∈ b :: l2 := hperm.mem_iff.mpr (List.mem_cons_self a (m ++ z))
          have hba_le : a.score ≤ b.score := by
            rcases List.mem_cons.mp hamem with h2 | h2
            · rw [h2]
            · exact List.rel_of_pairwise_cons hl h2
          rcases List.mem_append.mp h with h3 | h3
          · have hlt : b.score < a.score := List.rel_of_pairwise_cons hm h3
            exact absurd hba_le (not_le.mpr hlt)
          · have hb0 : b.score = 0 := hz b h3
            have ha0 : 0 < a.score := hmp a (List.mem_cons_self a m)
            rw [hb0] at hba_le
            exact absurd hba_le (not_le.mpr ha0)
      subst hba
      have hperm2 : l2.Perm (m ++ z) := hperm.cons_inv
      have ihl : l2.take m.length = m :=
        ih l2 z hperm2 hl.of_cons hm.of_cons
          (fun r hr => hmp r (List.mem_cons_of_mem _ hr)) hz
      show (b :: l2).take (m.length + 1) = b :: m
      rw [List.take_succ_cons, ihl]

theorem hybridCombineAll_closed_form
    (termsData : List TermEntry) (vres tres : List SearchResult) (alpha : Rat)
    (hv : (vres.map (fun r => r.entry.term)).Nodup)
    (ht : (tres.map (fun r => r.entry.term)).Nodup)
    (hfv : ∀ r ∈ vres, termsData.find? (fun e => e.term == r.entry.term) = some r.entry)
    (hft : ∀ r ∈ tres, termsData.find? (fun e => e.term == r.entry.term) = some r.entry) :
    hybridCombineAll termsData vres tres alpha =
      List.insertionSort scoreGe (mergedRows termsData vres tres alpha) := by
  unfold mergedRows mergedTerms
  have hsplit1 : vres.foldl (vecStep alpha) ([], []) =
      (vres.foldl (fun m r => dictSet m r.entry.term (alpha * r.score)) [],
       vres.foldl (fun l r => addTerm l r.entry.term) []) :=
    prod_foldl (fun m (r : SearchResult) => dictSet m r.entry.term (alpha * r.score))
      (fun l (r : SearchResult) => addTerm l r.entry.term) vres [] []
  have hsplit2 : ∀ (cs : List (String × Rat)) (ats : List String),
      tres.foldl (txtStep alpha) (cs, ats) =
        (tres.foldl (fun m r => dictAddOrSet m r.entry.term ((1 - alpha) * r.score)) cs,
         tres.foldl (fun l r => addTerm l r.entry.term) ats) :=
    fun cs ats =>
      prod_foldl (fun m (r : SearchResult) => dictAddOrSet m r.entry.term ((1 - alpha) * r.score))
        (fun l (r : SearchResult) => addTerm l r.entry.term) tres cs ats
  have hfoldV : vres.foldl (fun l r => addTerm l r.entry.term) [] =
      vres.map (fun r => r.entry.term) := by
    have hm : (vres.map (fun r => r.entry.term)).foldl addTerm [] =
        vres.foldl (fun l r => addTerm l r.entry.term) [] :=
      List.foldl_map (fun r => r.entry.term) addTerm vres []
    rw [← hm, foldl_addTerm_formula _ _ hv]
    simp
  have hfoldT : tres.foldl (fun l r => addTerm l r.entry.term)
        (vres.map (fun r => r.entry.term)) =
      (vres.map (fun r => r.entry.term)) ++
        (tres.map (fun r => r.entry.term)).filter
          (fun t => decide (t ∉ vres.map (fun r => r.entry.term))) := by
    have hm : (tres.map (fun r => r.entry.term)).foldl addTerm
          (vres.map (fun r => r.entry.term)) =
        tres.foldl (fun l r => addTerm l r.entry.term)
          (vres.map (fun r => r.entry.term)) :=
      List.foldl_map (fun r => r.entry.term) addTerm tres _
    rw [← hm, foldl_addTerm_formula _ _ ht]
  have hcombined : ∀ t,
      (alookup (tres.foldl (fun m r => dictAddOrSet m r.entry.term ((1 - alpha) * r.score))
          (vres.foldl (fun m r => dictSet m r.entry.term (alpha * r.score)) [])) t).getD 0 =
        alpha * firstScoreOf vres t + (1 - alpha) * firstScoreOf tres t := by
    intro t
    rw [txt_fold_lookup alpha tres ht _ t, vec_fold_lookup alpha vres hv [] t]
    unfold firstScoreOf
    cases hft2 : tres.find? (fun r => r.entry.term == t) <;>
      cases hfv2 : vres.find? (fun r => r.entry.term == t) <;>
        simp [hft2, hfv2, alookup]
  show List.insertionSort scoreGe
      ((tres.foldl (txtStep alpha) (vres.foldl (vecStep alpha) ([], []))).2.filterMap
        (fun t => (termsData.find? (fun e => e.term == t)).map
          (fun e => ⟨e, (alookup (tres.foldl (txtStep alpha)
            (vres.foldl (vecStep alpha) ([], []))).1 t).getD 0⟩))) = _
  rw [hsplit1, hsplit2, hfoldV, hfoldT]
  congr 1
  rw [filterMap_eq_map_of_some _ _
      (fun t => (⟨(termsData.find? (fun e => e.term == t)).getD defaultEntry,
        (alookup (tres.foldl (fun m r => dictAddOrSet m r.entry.term ((1 - alpha) * r.score))
          (vres.foldl (fun m r => dictSet m r.entry.term (alpha * r.score)) [])) t).getD 0⟩ :
          SearchResult))]
  · apply List.map_congr_left
    intro t _
    rw [hcombined t]
  · intro t htmem
    have hex : ∃ e, termsData.find? (fun e2 => e2.term == t) = some e := by
      rcases List.mem_append.mp htmem with hmem | hmem
      · obtain ⟨r, hr, hterm⟩ := List.mem_map.mp hmem
        exact ⟨r.entry, hterm ▸ hfv r hr⟩
      · have hmem2 : t ∈ tres.map (fun r => r.entry.term) := (List.mem_filter.mp hmem).1
        obtain ⟨r, hr, hterm⟩ := List.mem_map.mp hmem2
        exact ⟨r.entry, hterm ▸ hft r hr⟩
    obtain ⟨e, he⟩ := hex
    rw [he]
    rfl

theorem mem_mergedTerms (vres tres : List SearchResult) (t : String) :
    t ∈ mergedTerms vres tres ↔
      (∃ r ∈ vres, r.entry.term = t) ∨ (∃ r ∈ tres, r.entry.term = t) := by
  unfold mergedTerms
  simp only [List.mem_append, List.mem_filter, List.mem_map, decide_eq_true_eq]
  constructor
  · rintro (h | ⟨h, _⟩)
    · exact Or.inl h
    · exact Or.inr h
  · rintro (h | h)
    · exact Or.inl h
    · by_cases hvt : ∃ r ∈ vres, r.entry.term = t
      · exact Or.inl hvt
      · refine Or.inr ⟨h, ?_⟩
        intro hmem
        exact hvt hmem

theorem mergedTerms_nodup (vres tres : List SearchResult)
    (hv : (vres.map (fun r => r.entry.term)).Nodup)
    (ht : (tres.map (fun r => r.entry.term)).Nodup) :
    (mergedTerms vres tres).Nodup := by
  unfold mergedTerms
  refine hv.append (ht.filter _) ?_
  rw [List.disjoint_left]
  intro a ha hafil
  exact (of_decide_eq_true (List.mem_filter.mp hafil).2) ha

theorem mergedTerms_find (termsData : List TermEntry) (vres tres : List SearchResult)
    (hfv : ∀ r ∈ vres, termsData.find? (fun e => e.term == r.entry.term) = some r.entry)
    (hft : ∀ r ∈ tres, termsData.find? (fun e => e.term == r.entry.term) = some r.entry) :
    ∀ t ∈ mergedTerms vres tres, ∃ r, (r ∈ vres ++ tres) ∧ r.entry.term = t ∧
      termsData.find? (fun e => e.term == t) = some r.entry := by
  intro t htmem
  rcases (mem_mergedTerms vres tres t).mp htmem with ⟨r, hr, hterm⟩ | ⟨r, hr, hterm⟩
  · exact ⟨r, List.mem_append.mpr (Or.inl hr), hterm, hterm ▸ hfv r hr⟩
  · exact ⟨r, List.mem_append.mpr (Or.inr hr), hterm, hterm ▸ hft r hr⟩

/-- C1 (amended): given well-formed result sets — each record appears
at most once per set (pairwise-distinct surface forms within a set) and
every result row's record is the one a first-match scan of the
collection finds for its surface form — `hybrid_search`'s merge
produces, before the `[:k]` truncation, exactly one output row per
surface form appearing in either result set, with
`combinedScore = alpha * denseScore + (1 - alpha) * sparseScore`
(0 for an absent side, never double-counted), records pairwise
distinct, the whole list ordered descending by `combinedScore`, and the
final output is its `k`-prefix. -/
theorem hybrid_merge_amended
    (termsData : List TermEntry) (vres tres : List SearchResult) (k : Nat) (alpha : Rat)
    (hv : (vres.map (fun r => r.entry.term)).Nodup)
    (ht : (tres.map (fun r => r.entry.term)).Nodup)
    (hfv : ∀ r ∈ vres, termsData.find? (fun e => e.term == r.entry.term) = some r.entry)
    (hft : ∀ r ∈ tres, termsData.find? (fun e => e.term == r.entry.term) = some r.entry) :
    hybridCombine termsData vres tres k alpha =
      (hybridCombineAll termsData vres tres alpha).take k ∧
    (∀ row ∈ hybridCombineAll termsData vres tres alpha,
      row.score = alpha * firstScoreOf vres row.entry.term +
        (1 - alpha) * firstScoreOf tres row.entry.term) ∧
    ((hybridCombineAll termsData vres tres alpha).map (fun row => row.entry)).Nodup ∧
    (∀ r ∈ vres ++ tres,
      r.entry ∈ (hybridCombineAll termsData vres tres alpha).map (fun row => row.entry)) ∧
    (∀ row ∈ hybridCombineAll termsData vres tres alpha,
      ∃ r ∈ vres ++ tres, row.entry = r.entry) ∧
    (hybridCombineAll termsData vres tres alpha).Pairwise scoreGe := by
  have hcf := hybridCombineAll_closed_form termsData vres tres alpha hv ht hfv hft
  have hperm : (hybridCombineAll termsData vres tres alpha).Perm
      (mergedRows termsData vres tres alpha) := by
    rw [hcf]
    exact List.perm_insertionSort scoreGe _
  have hsort : (hybridCombineAll termsData vres tres alpha).Pairwise scoreGe := by
    rw [hcf]
    exact List.sorted_insertionSort scoreGe _
  have hchar := mergedTerms_find termsData vres tres hfv hft
  refine ⟨rfl, ?_, ?_, ?_, ?_, hsort⟩
  · intro row hrow
    have hrow2 : row ∈ mergedRows termsData vres tres alpha := hperm.mem_iff.mp hrow
    obtain ⟨t, htT, heq⟩ := List.mem_map.mp hrow2
    obtain ⟨r, hrmem, hterm, hfind⟩ := hchar t htT
    subst heq
    simp only [hfind, Option.getD_some, hterm]
  · have hnd : ((mergedRows termsData vres tres alpha).map (fun row => row.entry)).Nodup := by
      unfold mergedRows
      rw [List.map_map]
      apply List.Nodup.map_on ?_ (mergedTerms_nodup vres tres hv ht)
      intro x hx y hy hxy
      obtain ⟨rx, _, htx, hfx⟩ := hchar x hx
      obtain ⟨ry, _, hty, hfy⟩ := hchar y hy
      simp only [Function.comp, hfx, hfy, Option.getD_some] at hxy
      rw [← htx, ← hty, hxy]
    exact ((hperm.map (fun row => row.entry)).nodup_iff).mpr hnd
  · intro r hr
    have htT : r.entry.term ∈ mergedTerms vres tres := by
      rw [mem_mergedTerms]
      rcases List.mem_append.mp hr with h | h
      · exact Or.inl ⟨r, h, rfl⟩
      · exact Or.inr ⟨r, h, rfl⟩
    have hfind : termsData.find? (fun e => e.term == r.entry.term) = some r.entry := by
      rcases List.mem_append.mp hr with h | h
      · exact hfv r h
      · exact hft r h
    refine ((hperm.map (fun row => row.entry)).mem_iff).mpr ?_
    unfold mergedRows
    rw [List.map_map]
    refine List.mem_map.mpr ⟨r.entry.term, htT, ?_⟩
    simp only [Function.comp, hfind, Option.getD_some]
  · intro row hrow
    have hrow2 : row ∈ mergedRows termsData vres tres alpha := hperm.mem_iff.mp hrow
    obtain ⟨t, htT, heq⟩ := List.mem_map.mp hrow2
    obtain ⟨r, hrmem, hterm, hfind⟩ := hchar t htT
    refine ⟨r, hrmem, ?_⟩
    subst heq
    simp only [hfind, Option.getD_some]

/-- C2 (amended): with well-formed result sets — pairwise-distinct
surface forms per set, rows found back in the collection by first
match, strictly descending positive scores, and at least `k` rows in
each set — `hybrid_search`'s merge with `alpha = 1` returns exactly the
first `k` dense rows (same records, order and scores), and with
`alpha = 0` exactly the first `k` sparse rows. -/
theorem hybrid_alpha_degenerate_amended
    (termsData : List TermEntry) (vres tres : List SearchResult) (k : Nat)
    (hv : (vres.map (fun r => r.entry.term)).Nodup)
    (ht : (tres.map (fun r => r.entry.term)).Nodup)
    (hfv : ∀ r ∈ vres, termsData.find? (fun e => e.term == r.entry.term) = some r.entry)
    (hft : ∀ r ∈ tres, termsData.find? (fun e => e.term == r.entry.term) = some r.entry)
    (hsv : vres.Pairwise (fun a b => b.score < a.score))
    (hst : tres.Pairwise (fun a b => b.score < a.score))
    (hpv : ∀ r ∈ vres, 0 < r.score)
    (hpt : ∀ r ∈ tres, 0 < r.score)
    (hkv : k ≤ vres.length) (hkt : k ≤ tres.length) :
    hybridCombine termsData vres tres k 1 = vres.take k ∧
    hybridCombine termsData vres tres k 0 = tres.take k := by
  constructor
  · have hcf := hybridCombineAll_closed_form termsData vres tres 1 hv ht hfv hft
    have hrows : mergedRows termsData vres tres 1 =
        vres ++ ((tres.map (fun r => r.entry.term)).filter
            (fun t => decide (t ∉ vres.map (fun r => r.entry.term)))).map
          (fun t => (⟨(termsData.find? (fun e => e.term == t)).getD defaultEntry,
            1 * firstScoreOf vres t + (1 - 1) * firstScoreOf tres t⟩ : SearchResult)) := by
      unfold mergedRows mergedTerms
      rw [List.map_append]
      congr 1
      rw [List.map_map]
      refine Eq.trans (List.map_congr_left ?_) (List.map_id vres)
      intro r hr
      have hfind := hfv r hr
      have hself := find?_self_of_nodup (fun x : SearchResult => x.entry.term) vres r hv hr
      show (⟨(termsData.find? (fun e => e.term == r.entry.term)).getD defaultEntry,
        1 * firstScoreOf vres r.entry.term + (1 - 1) * firstScoreOf tres r.entry.term⟩ :
          SearchResult) = r
      unfold firstScoreOf
      rw [hfind, hself]
      simp
    have hzero : ∀ row ∈ ((tres.map (fun r => r.entry.term)).filter
          (fun t => decide (t ∉ vres.map (fun r => r.entry.term)))).map
        (fun t => (⟨(termsData.find? (fun e => e.term == t)).getD defaultEntry,
          1 * firstScoreOf vres t + (1 - 1) * firstScoreOf tres t⟩ : SearchResult)),
        row.score = 0 := by
      intro row hrow
      obtain ⟨t, htmem, heq⟩ := List.mem_map.mp hrow
      have hnotv : t ∉ vres.map (fun r => r.entry.term) :=
        of_decide_eq_true (List.mem_filter.mp htmem).2
      have hfs : firstScoreOf vres t = 0 := by
        unfold firstScoreOf
        rw [List.find?_eq_none.mpr ?_]
        · rfl
        · intro x hx
          simp only [beq_iff_eq]
          intro hxt
          exact hnotv (hxt ▸ List.mem_map_of_mem _ hx)
      subst heq
      show 1 * firstScoreOf vres t + (1 - 1) * firstScoreOf tres t = 0
      rw [hfs]
      ring
    have hperm : (hybridCombineAll termsData vres tres 1).Perm
        (vres ++ ((tres.map (fun r => r.entry.term)).filter
            (fun t => decide (t ∉ vres.map (fun r => r.entry.term)))).map
          (fun t => (⟨(termsData.find? (fun e => e.term == t)).getD defaultEntry,
            1 * firstScoreOf vres t + (1 - 1) * firstScoreOf tres t⟩ : SearchResult))) := by
      rw [hcf, hrows]
      exact List.perm_insertionSort scoreGe _
    have hsorted : (hybridCombineAll termsData vres tres 1).Pairwise scoreGe := by
      rw [hcf]
      exact List.sorted_insertionSort scoreGe _
    have htake := take_of_sorted_perm_pos_zero vres _ _ hperm hsorted hsv hpv hzero
    have hkk : (hybridCombineAll termsData vres tres 1).take k =
        ((hybridCombineAll termsData vres tres 1).take vres.length).take k := by
      rw [List.take_take, Nat.min_eq_left hkv]
    show (hybridCombineAll termsData vres tres 1).take k = vres.take k
    rw [hkk, htake]
  · have hcf := hybridCombineAll_closed_form termsData vres tres 0 hv ht hfv hft
    have hndR : ((tres.map (fun r => r.entry.term)) ++
        (vres.map (fun r => r.entry.term)).filter
          (fun t => decide (t ∉ tres.map (fun r => r.entry.term)))).Nodup := by
      refine ht.append (hv.filter _) ?_
      rw [List.disjoint_left]
      intro a ha hafil
      exact (of_decide_eq_true (List.mem_filter.mp hafil).2) ha
    have htermsperm : (mergedTerms vres tres).Perm
        ((tres.map (fun r => r.entry.term)) ++
          (vres.map (fun r => r.entry.term)).filter
            (fun t => decide (t ∉ tres.map (fun r => r.entry.term)))) := by
      rw [List.perm_ext_iff_of_nodup (mergedTerms_nodup vres tres hv ht) hndR]
      intro a
      rw [mem_mergedTerms]
      simp only [List.mem_append, List.mem_filter, List.mem_map, decide_eq_true_eq]
      constructor
      · rintro (⟨r, hr, h⟩ | ⟨r, hr, h⟩)
        · by_cases hat : ∃ x ∈ tres, x.entry.term = a
          · exact Or.inl hat
          · exact Or.inr ⟨⟨r, hr, h⟩, hat⟩
        · exact Or.inl ⟨r, hr, h⟩
      · rintro (⟨r, hr, h⟩ | ⟨⟨r, hr, h⟩, _⟩)
        · exact Or.inr ⟨r, hr, h⟩
        · exact Or.inl ⟨r, hr, h⟩
    have htmap : (tres.map (fun r => r.entry.term)).map
        (fun t => (⟨(termsData.find? (fun e => e.term == t)).getD defaultEntry,
          0 * firstScoreOf vres t + (1 - 0) * firstScoreOf tres t⟩ : SearchResult)) = tres := by
      rw [List.map_map]
      refine Eq.trans (List.map_congr_left ?_) (List.map_id tres)
      intro r hr
      have hfind := hft r hr
      have hself := find?_self_of_nodup (fun x : SearchResult => x.entry.term) tres r ht hr
      show (⟨(termsData.find? (fun e => e.term == r.entry.term)).getD defaultEntry,
        0 * firstScoreOf vres r.entry.term + (1 - 0) * firstScoreOf tres r.entry.term⟩ :
          SearchResult) = r
      unfold firstScoreOf
      rw [hfind, hself]
      simp
    have hzero0 : ∀ row ∈ ((vres.map (fun r => r.entry.term)).filter
          (fun t => decide (t ∉ tres.map (fun r => r.entry.term)))).map
        (fun t => (⟨(termsData.find? (fun e => e.term == t)).getD defaultEntry,
          0 * firstScoreOf vres t + (1 - 0) * firstScoreOf tres t⟩ : SearchResult)),
        row.score = 0 := by
      intro row hrow
      obtain ⟨t, htmem, heq⟩ := List.mem_map.mp hrow
      have hnott : t ∉ tres.map (fun r => r.entry.term) :=
        of_decide_eq_true (List.mem_filter.mp htmem).2
      have hfs : firstScoreOf tres t = 0 := by
        unfold firstScoreOf
        rw [List.find?_eq_none.mpr ?_]
        · rfl
        · intro x hx
          simp only [beq_iff_eq]
          intro hxt
          exact hnott (hxt ▸ List.mem_map_of_mem _ hx)
      subst heq
      show 0 * firstScoreOf vres t + (1 - 0) * firstScoreOf tres t = 0
      rw [hfs]
      ring
    have hperm : (hybridCombineAll termsData vres tres 0).Perm
        (tres ++ ((vres.map (fun r => r.entry.term)).filter
            (fun t => decide (t ∉ tres.map (fun r => r.entry.term)))).map
          (fun t => (⟨(termsData.find? (fun e => e.term == t)).getD defaultEntry,
            0 * firstScoreOf vres t + (1 - 0) * firstScoreOf tres t⟩ : SearchResult))) := by
      rw [hcf]
      refine (List.perm_insertionSort scoreGe _).trans ?_
      unfold mergedRows
      refine (htermsperm.map _).trans ?_
      rw [List.map_append, htmap]
    have hsorted : (hybridCombineAll termsData vres tres 0).Pairwise scoreGe := by
      rw [hcf]
      exact List.sorted_insertionSort scoreGe _
    have htake := take_of_sorted_perm_pos_zero tres _ _ hperm hsorted hst hpt hzero0
    have hkk : (hybridCombineAll termsData vres tres 0).take k =
        ((hybridCombineAll termsData vres tres 0).take tres.length).take k := by
      rw [List.take_take, Nat.min_eq_left hkt]
    show (hybridCombineAll termsData vres tres 0).take k = tres.take k
    rw [hkk, htake]

section ConcreteExtraction

attribute [local semireducible] Rat.add Rat.mul Rat.sub Rat.inv

set_option maxRecDepth 100000

/-- Witness for C8 at a concrete input: a text whose regex oracle
matches `RC` twice and `基礎工事` once, followed by a noun-noun stream;
extraction succeeds and its surface forms are pairwise distinct. -/
theorem extract_terms_nodup_witness :
    extractTermsFromText (fun _ _ => ["RC", "RC", "基礎工事"]) "t"
        [⟨"耐震", "名詞"⟩, ⟨"補強", "名詞"⟩] =
      some [⟨"RC", "pattern", 7 / 10⟩, ⟨"基礎工事", "pattern", 7 / 10⟩,
            ⟨"耐震補強", "morphological", 8 / 10⟩] ∧
    ((([⟨"RC", "pattern", 7 / 10⟩, ⟨"基礎工事", "pattern", 7 / 10⟩,
        ⟨"耐震補強", "morphological", 8 / 10⟩] : List Candidate)).map
      (fun c => c.term)).Nodup :=
  ⟨by decide,
   extract_terms_nodup (fun _ _ => ["RC", "RC", "基礎工事"]) "t"
     [⟨"耐震", "名詞"⟩, ⟨"補強", "名詞"⟩]
     [⟨"RC", "pattern", 7 / 10⟩, ⟨"基礎工事", "pattern", 7 / 10⟩,
      ⟨"耐震補強", "morphological", 8 / 10⟩] (by decide)⟩

/-- Witness for C9: a term occurring once in each of four documents has
frequency 4 and boosted confidence `min(1, 0.8 + 0.1) = 0.9`. -/
theorem batch_confidence_boost_witness :
    (⟨"耐震補強", "morphological", 9 / 10, 4⟩ : BatchEntry) ∈
      extractTermsFromPdfs
        [[⟨"耐震補強", "morphological", 8 / 10⟩], [⟨"耐震補強", "morphological", 8 / 10⟩],
         [⟨"耐震補強", "morphological", 8 / 10⟩], [⟨"耐震補強", "morphological", 8 / 10⟩]] ∧
    ((⟨"耐震補強", "morphological", 9 / 10, 4⟩ : BatchEntry).frequency =
      (([[⟨"耐震補強", "morphological", 8 / 10⟩], [⟨"耐震補強", "morphological", 8 / 10⟩],
         [⟨"耐震補強", "morphological", 8 / 10⟩], [⟨"耐震補強", "morphological", 8 / 10⟩]] :
          List (List Candidate)).flatten).countP
        (fun c => c.term == (⟨"耐震補強", "morphological", 9 / 10, 4⟩ : BatchEntry).term) ∧
     (⟨"耐震補強", "morphological", 9 / 10, 4⟩ : BatchEntry).confidence =
      (if 3 < (⟨"耐震補強", "morphological", 9 / 10, 4⟩ : BatchEntry).frequency then
        min 1 (rawConfOf
          [[⟨"耐震補強", "morphological", 8 / 10⟩], [⟨"耐震補強", "morphological", 8 / 10⟩],
           [⟨"耐震補強", "morphological", 8 / 10⟩], [⟨"耐震補強", "morphological", 8 / 10⟩]]
          (⟨"耐震補強", "morphological", 9 / 10, 4⟩ : BatchEntry).term + 1 / 10)
      else rawConfOf
          [[⟨"耐震補強", "morphological", 8 / 10⟩], [⟨"耐震補強", "morphological", 8 / 10⟩],
           [⟨"耐震補強", "morphological", 8 / 10⟩], [⟨"耐震補強", "morphological", 8 / 10⟩]]
          (⟨"耐震補強", "morphological", 9 / 10, 4⟩ : BatchEntry).term)) :=
  ⟨by decide,
   batch_confidence_boost
     [[⟨"耐震補強", "morphological", 8 / 10⟩], [⟨"耐震補強", "morphological", 8 / 10⟩],
      [⟨"耐震補強", "morphological", 8 / 10⟩], [⟨"耐震補強", "morphological", 8 / 10⟩]]
     ⟨"耐震補強", "morphological", 9 / 10, 4⟩ (by decide)⟩

/-- Witness for C1 (amended) at a concrete instance: collection
`[B, C]`, dense set `[B(1)]`, sparse set `[C(2)]`, `k = 2`,
`alpha = 1/2`. -/
theorem hybrid_merge_amended_witness :
    (([⟨eB, 1⟩] : List SearchResult).map (fun r => r.entry.term)).Nodup ∧
    (([⟨eC, 2⟩] : List SearchResult).map (fun r => r.entry.term)).Nodup ∧
    (∀ r ∈ ([⟨eB, 1⟩] : List SearchResult),
      [eB, eC].find? (fun e => e.term == r.entry.term) = some r.entry) ∧
    (∀ r ∈ ([⟨eC, 2⟩] : List SearchResult),
      [eB, eC].find? (fun e => e.term == r.entry.term) = some r.entry) ∧
    (hybridCombine [eB, eC] [⟨eB, 1⟩] [⟨eC, 2⟩] 2 (1 / 2) =
        (hybridCombineAll [eB, eC] [⟨eB, 1⟩] [⟨eC, 2⟩] (1 / 2)).take 2 ∧
     (∀ row ∈ hybridCombineAll [eB, eC] [⟨eB, 1⟩] [⟨eC, 2⟩] (1 / 2),
       row.score = (1 / 2) * firstScoreOf [⟨eB, 1⟩] row.entry.term +
         (1 - 1 / 2) * firstScoreOf [⟨eC, 2⟩] row.entry.term) ∧
     ((hybridCombineAll [eB, eC] [⟨eB, 1⟩] [⟨eC, 2⟩] (1 / 2)).map
       (fun row => row.entry)).Nodup ∧
     (∀ r ∈ ([⟨eB, 1⟩] : List SearchResult) ++ [⟨eC, 2⟩],
       r.entry ∈ (hybridCombineAll [eB, eC] [⟨eB, 1⟩] [⟨eC, 2⟩] (1 / 2)).map
         (fun row => row.entry)) ∧
     (∀ row ∈ hybridCombineAll [eB, eC] [⟨eB, 1⟩] [⟨eC, 2⟩] (1 / 2),
       ∃ r ∈ ([⟨eB, 1⟩] : List SearchResult) ++ [⟨eC, 2⟩], row.entry = r.entry) ∧
     (hybridCombineAll [eB, eC] [⟨eB, 1⟩] [⟨eC, 2⟩] (1 / 2)).Pairwise scoreGe) :=
  ⟨by decide, by decide, by decide, by decide,
   hybrid_merge_amended [eB, eC] [⟨eB, 1⟩] [⟨eC, 2⟩] 2 (1 / 2)
     (by decide) (by decide) (by decide) (by decide)⟩

/-- Witness for C2 (amended) at a concrete instance: collection
`[B, C]`, dense set `[B(1)]`, sparse set `[C(2)]`, `k = 1`. -/
theorem hybrid_alpha_degenerate_amended_witness :
    (([⟨eB, 1⟩] : List SearchResult).map (fun r => r.entry.term)).Nodup ∧
    (([⟨eC, 2⟩] : List SearchResult).map (fun r => r.entry.term)).Nodup ∧
    (∀ r ∈ ([⟨eB, 1⟩] : List SearchResult),
      [eB, eC].find? (fun e => e.term == r.entry.term) = some r.entry) ∧
    (∀ r ∈ ([⟨eC, 2⟩] : List SearchResult),
      [eB, eC].find? (fun e => e.term == r.entry.term) = some r.entry) ∧
    ([⟨eB, 1⟩] : List SearchResult).Pairwise (fun a b => b.score < a.score) ∧
    ([⟨eC, 2⟩] : List SearchResult).Pairwise (fun a b => b.score < a.score) ∧
    (∀ r ∈ ([⟨eB, 1⟩] : List SearchResult), 0 < r.score) ∧
    (∀ r ∈ ([⟨eC, 2⟩] : List SearchResult), 0 < r.score) ∧
    1 ≤ ([⟨eB, 1⟩] : List SearchResult).length ∧
    1 ≤ ([⟨eC, 2⟩] : List SearchResult).length ∧
    (hybridCombine [eB, eC] [⟨eB, 1⟩] [⟨eC, 2⟩] 1 1 =
        ([⟨eB, 1⟩] : List SearchResult).take 1 ∧
     hybridCombine [eB, eC] [⟨eB, 1⟩] [⟨eC, 2⟩] 1 0 =
        ([⟨eC, 2⟩] : List SearchResult).take 1) :=
  ⟨by decide, by decide, by decide, by decide, by decide, by decide, by decide, by decide,
   by decide, by decide,
   hybrid_alpha_degenerate_amended [eB, eC] [⟨eB, 1⟩] [⟨eC, 2⟩] 1
     (by decide) (by decide) (by decide) (by decide) (by decide) (by decide)
     (by decide) (by decide) (by decide) (by decide)⟩

end ConcreteExtraction
